import Mathlib

/-!
Verification development for the market-dashboard scraper (src/app.py and
src/scrape_markets.py).

The embedding models:
* JSON values (`JValue`) as produced by the Python code and stored in the
  cache file; Python floats are modelled as rationals, `NaN` as `null`.
* `datetime` values (`DateTime`) together with `isoformat`,
  `fromisoformat` (on the subset of well-formed strings the code produces)
  and the subtraction `total_seconds` used for the TTL check, via an exact
  civil-calendar day count (`daysFromCivil`).
* The HTML documents seen by BeautifulSoup as a flat list of nodes in
  document order (`Node`), with tables carrying class tokens, a header row
  and data rows.
* The functions `fetch_market_data`, `load_cached_data`, `format_change`
  (src/app.py) and `fetch_global_indices` (src/scrape_markets.py), with
  every exception path of the source modelled as an explicit input
  (network failure message, write failure message) or output (`none`).
-/

namespace Market

/-! ## Decimal printing and parsing

Models Python building of decimal strings (f-strings, `str`, zero padded
`%02d` style fields) and the digit parsing inside
`datetime.fromisoformat`. -/

/-- The character for a single decimal digit. -/
def digitChar (d : Nat) : Char := Char.ofNat (48 + d)

/-- The numeric value of a decimal digit character. -/
def charDigit (c : Char) : Nat := c.toNat - 48

/-- Digit characters of a positive number, most significant first; the
first argument is recursion fuel, sufficient whenever the number is at
most the fuel. -/
def natToCharsCore : Nat → Nat → List Char
  | _, 0 => []
  | 0, _ + 1 => []
  | fuel + 1, m + 1 =>
    natToCharsCore fuel ((m + 1) / 10) ++ [digitChar ((m + 1) % 10)]

/-- Decimal digit characters of a natural number, most significant first,
as Python `str` prints it. -/
def natToChars (n : Nat) : List Char :=
  if n = 0 then ['0'] else natToCharsCore n n

/-- Decimal string of a natural number, as Python `str` prints it. -/
def natToString (n : Nat) : String := String.mk (natToChars n)

/-- Horner evaluation of a big-endian decimal digit string. -/
def digitsVal (cs : List Char) : Nat := cs.foldl (fun n c => n * 10 + charDigit c) 0

/-- Parse a nonempty all-digit character list as a natural number. -/
def parseDigits (cs : List Char) : Option Nat :=
  if !cs.isEmpty && cs.all Char.isDigit then some (digitsVal cs) else none

/-- Zero padded decimal digit characters, as Python formats with a
minimum width (for example a `%02d` style field). -/
def padChars (w : Nat) (n : Nat) : List Char :=
  List.replicate (w - (natToChars n).length) '0' ++ natToChars n

theorem natToCharsCore_eq : ∀ (fuel m : Nat), m ≤ fuel →
    natToCharsCore fuel m = ((Nat.digits 10 m).map digitChar).reverse := by
  intro fuel
  induction fuel with
  | zero =>
    intro m hm
    have h0 : m = 0 := Nat.le_zero.mp hm
    subst h0
    simp [natToCharsCore]
  | succ f ih =>
    intro m hm
    match m with
    | 0 => simp [natToCharsCore]
    | k + 1 =>
      have hdiv : (k + 1) / 10 ≤ f := by omega
      simp only [natToCharsCore]
      rw [ih ((k + 1) / 10) hdiv,
        Nat.digits_def' (by norm_num : (1:Nat) < 10) (Nat.succ_pos k)]
      simp

theorem natToChars_eq (n : Nat) :
    natToChars n = if n = 0 then ['0'] else ((Nat.digits 10 n).map digitChar).reverse := by
  by_cases h : n = 0
  · simp [natToChars, h]
  · simp [natToChars, h, natToCharsCore_eq n n le_rfl]

theorem charDigit_digitChar {d : Nat} (h : d < 10) : charDigit (digitChar d) = d := by
  interval_cases d <;> rfl

theorem digitChar_isDigit {d : Nat} (h : d < 10) : (digitChar d).isDigit = true := by
  interval_cases d <;> rfl

theorem natToChars_all_digits (n : Nat) : (natToChars n).all Char.isDigit = true := by
  rw [natToChars_eq]
  split
  · rfl
  · rw [List.all_eq_true]
    intro c hc
    rw [List.mem_reverse, List.mem_map] at hc
    obtain ⟨d, hd, rfl⟩ := hc
    exact digitChar_isDigit (Nat.digits_lt_base (by norm_num) hd)

theorem natToChars_ne_nil (n : Nat) : natToChars n ≠ [] := by
  rw [natToChars_eq]
  split
  · simp
  · simp only [ne_eq, List.reverse_eq_nil_iff, List.map_eq_nil_iff]
    exact Nat.digits_ne_nil_iff_ne_zero.mpr (by assumption)

theorem map_digitChar_inj : ∀ {l₁ l₂ : List Nat}, (∀ d ∈ l₁, d < 10) → (∀ d ∈ l₂, d < 10) →
    l₁.map digitChar = l₂.map digitChar → l₁ = l₂ := by
  intro l₁
  induction l₁ with
  | nil => intro l₂ _ _ h; cases l₂ <;> simp_all
  | cons a t ih =>
    intro l₂ h₁ h₂ h
    cases l₂ with
    | nil => simp at h
    | cons b t₂ =>
      simp only [List.map_cons, List.cons.injEq] at h
      have ha : a < 10 := h₁ a (by simp)
      have hb : b < 10 := h₂ b (by simp)
      have hab : a = b := by
        have := congrArg charDigit h.1
        rwa [charDigit_digitChar ha, charDigit_digitChar hb] at this
      have ht : t = t₂ :=
        ih (fun d hd => h₁ d (by simp [hd])) (fun d hd => h₂ d (by simp [hd])) h.2
      rw [hab, ht]

theorem natToChars_injective : Function.Injective natToChars := by
  intro a b h
  rw [natToChars_eq, natToChars_eq] at h
  by_cases ha : a = 0 <;> by_cases hb : b = 0
  · omega
  · exfalso
    rw [if_pos ha, if_neg hb] at h
    have h2 : (Nat.digits 10 b).map digitChar = ['0'] := by
      have := congrArg List.reverse h
      simpa using this.symm
    rcases hd : Nat.digits 10 b with _ | ⟨d, rest⟩
    · rw [hd] at h2; simp at h2
    · rw [hd] at h2
      rcases rest with _ | ⟨e, r⟩
      · simp only [List.map_cons, List.map_nil, List.cons.injEq] at h2
        have hd10 : d < 10 := Nat.digits_lt_base (by norm_num) (by rw [hd]; simp)
        have hd0 : d = 0 := by
          have := congrArg charDigit h2.1
          rw [charDigit_digitChar hd10] at this
          simpa [charDigit] using this
        have hb0 : b = Nat.ofDigits 10 (Nat.digits 10 b) := (Nat.ofDigits_digits 10 b).symm
        rw [hd, hd0] at hb0
        simp [Nat.ofDigits] at hb0
        exact hb hb0
      · simp at h2
  · exfalso
    rw [if_neg ha, if_pos hb] at h
    have h2 : (Nat.digits 10 a).map digitChar = ['0'] := by
      have := congrArg List.reverse h
      simpa using this
    rcases hd : Nat.digits 10 a with _ | ⟨d, rest⟩
    · rw [hd] at h2; simp at h2
    · rw [hd] at h2
      rcases rest with _ | ⟨e, r⟩
      · simp only [List.map_cons, List.map_nil, List.cons.injEq] at h2
        have hd10 : d < 10 := Nat.digits_lt_base (by norm_num) (by rw [hd]; simp)
        have hd0 : d = 0 := by
          have := congrArg charDigit h2.1
          rw [charDigit_digitChar hd10] at this
          simpa [charDigit] using this
        have ha0 : a = Nat.ofDigits 10 (Nat.digits 10 a) := (Nat.ofDigits_digits 10 a).symm
        rw [hd, hd0] at ha0
        simp [Nat.ofDigits] at ha0
        exact ha ha0
      · simp at h2
  · rw [if_neg ha, if_neg hb] at h
    have := List.reverse_injective h
    have hdig := map_digitChar_inj
      (fun d hd => Nat.digits_lt_base (by norm_num) hd)
      (fun d hd => Nat.digits_lt_base (by norm_num) hd) this
    exact Nat.digits.injective 10 hdig

theorem natToString_injective : Function.Injective natToString := by
  intro a b h
  exact natToChars_injective (congrArg String.data h)

theorem foldr_horner_eq_ofDigits : ∀ (l : List Nat), (∀ d ∈ l, d < 10) →
    l.foldr (fun d y => y * 10 + charDigit (digitChar d)) 0 = Nat.ofDigits 10 l := by
  intro l
  induction l with
  | nil => intro _; simp [Nat.ofDigits]
  | cons d t ih =>
    intro h
    have hd : d < 10 := h d (by simp)
    simp only [List.foldr_cons, Nat.ofDigits_cons,
      ih (fun e he => h e (by simp [he])), charDigit_digitChar hd]
    ring

theorem digitsVal_natToChars (n : Nat) : digitsVal (natToChars n) = n := by
  rw [natToChars_eq]
  unfold digitsVal
  split
  · subst n; rfl
  · rw [List.foldl_reverse]
    rw [List.foldr_map]
    have := foldr_horner_eq_ofDigits (Nat.digits 10 n)
      (fun d hd => Nat.digits_lt_base (by norm_num) hd)
    simpa [Function.comp, this] using Nat.ofDigits_digits 10 n

theorem digitsVal_append_zeros (k : Nat) (cs : List Char) :
    digitsVal (List.replicate k '0' ++ cs) = digitsVal cs := by
  unfold digitsVal
  rw [List.foldl_append]
  congr 1
  induction k with
  | zero => rfl
  | succ m ih => simpa [List.replicate_succ, charDigit] using ih

theorem padChars_all_digits (w n : Nat) : (padChars w n).all Char.isDigit = true := by
  unfold padChars
  rw [List.all_append, natToChars_all_digits, Bool.and_true]
  rw [List.all_eq_true]
  intro c hc
  rw [List.eq_of_mem_replicate hc]
  rfl

theorem parseDigits_padChars (w n : Nat) : parseDigits (padChars w n) = some n := by
  unfold parseDigits
  rw [padChars_all_digits]
  have hne : ¬(padChars w n).isEmpty = true := by
    unfold padChars
    rcases he : natToChars n with _ | ⟨c, cs⟩
    · exact absurd he (natToChars_ne_nil n)
    · simp [List.isEmpty_iff]
  simp only [hne, Bool.not_false, Bool.and_true, Bool.true_and, if_pos]
  unfold padChars
  rw [digitsVal_append_zeros, digitsVal_natToChars]

/-! ## Character list splitting

Used to model the field separation inside `datetime.fromisoformat` on the
strings this program stores. -/

/-- Split a character list at every occurrence of the separator `c`. -/
def splitOnChar (c : Char) : List Char → List (List Char)
  | [] => [[]]
  | x :: xs =>
    if x = c then [] :: splitOnChar c xs
    else
      match splitOnChar c xs with
      | [] => [[x]]
      | h :: t => (x :: h) :: t

theorem splitOnChar_ne_nil (c : Char) : ∀ (l : List Char), splitOnChar c l ≠ [] := by
  intro l
  induction l with
  | nil => simp [splitOnChar]
  | cons x xs ih =>
    unfold splitOnChar
    split
    · simp
    · rcases h : splitOnChar c xs with _ | ⟨a, b⟩ <;> simp

theorem splitOnChar_not_mem {c : Char} : ∀ {l : List Char}, c ∉ l → splitOnChar c l = [l] := by
  intro l
  induction l with
  | nil => intro _; rfl
  | cons x xs ih =>
    intro h
    have hx : ¬x = c := fun e => h (by simp [e])
    have hxs : c ∉ xs := fun e => h (by simp [e])
    unfold splitOnChar
    rw [if_neg hx, ih hxs]

theorem splitOnChar_append {c : Char} : ∀ {l₁ : List Char} (l₂ : List Char), c ∉ l₁ →
    splitOnChar c (l₁ ++ c :: l₂) = l₁ :: splitOnChar c l₂ := by
  intro l₁
  induction l₁ with
  | nil => intro l₂ _; simp [splitOnChar]
  | cons x xs ih =>
    intro l₂ h
    have hx : ¬x = c := fun e => h (by simp [e])
    have hxs : c ∉ xs := fun e => h (by simp [e])
    rw [List.cons_append, splitOnChar, if_neg hx, ih l₂ hxs]

theorem not_mem_of_all_digits {c : Char} (hc : c.isDigit = false) :
    ∀ {l : List Char}, l.all Char.isDigit = true → c ∉ l := by
  intro l hl hmem
  rw [List.all_eq_true] at hl
  have := hl c hmem
  rw [hc] at this
  exact Bool.false_ne_true this

theorem not_mem_pad {c : Char} (hc : c.isDigit = false) (w n : Nat) : c ∉ padChars w n :=
  not_mem_of_all_digits hc (padChars_all_digits w n)

/-! ## Date and time

Models the `datetime.datetime` values this program creates and compares.
The subtraction `(a - b).total_seconds()` is modelled exactly through
`epochMicro`, a microsecond count from the Unix epoch computed with the
standard civil-calendar day numbering. -/

/-- A naive `datetime.datetime` value. -/
structure DateTime where
  year : Nat
  month : Nat
  day : Nat
  hour : Nat
  minute : Nat
  second : Nat
  micro : Nat
deriving DecidableEq, Repr

/-- Range check on the fields, mirroring the values `datetime` can hold
(the day bound is the uniform `31`; every timestamp the program itself
produces satisfies it). -/
def DateTime.valid (t : DateTime) : Bool :=
  1 ≤ t.year && t.year ≤ 9999 && 1 ≤ t.month && t.month ≤ 12 &&
  1 ≤ t.day && t.day ≤ 31 && t.hour ≤ 23 && t.minute ≤ 59 &&
  t.second ≤ 59 && t.micro ≤ 999999

/-- Date part of `datetime.isoformat()`: `YYYY-MM-DD`. -/
def dateChars (t : DateTime) : List Char :=
  padChars 4 t.year ++ '-' :: padChars 2 t.month ++ '-' :: padChars 2 t.day

/-- Time part of `datetime.isoformat()`: `HH:MM:SS` with a microsecond
suffix exactly when the microsecond field is nonzero. -/
def timeChars (t : DateTime) : List Char :=
  padChars 2 t.hour ++ ':' :: padChars 2 t.minute ++ ':' ::
  (padChars 2 t.second ++ (if t.micro = 0 then [] else '.' :: padChars 6 t.micro))

/-- Characters of `datetime.isoformat()`: date, `T`, time. -/
def isoChars (t : DateTime) : List Char := dateChars t ++ 'T' :: timeChars t

/-- Models `datetime.isoformat()`. -/
def isoformat (t : DateTime) : String := String.mk (isoChars t)

/-- Construct a `DateTime` after the range checks `datetime` performs. -/
def mkDateTime (y mo dy h mi s us : Nat) : Option DateTime :=
  let t : DateTime := ⟨y, mo, dy, h, mi, s, us⟩
  if t.valid then some t else none

/-- Microsecond field parsing of `fromisoformat`: three or six fractional
digits. -/
def parseMicro (frac : List Char) : Option Nat :=
  if frac.length = 6 then parseDigits frac
  else if frac.length = 3 then (parseDigits frac).map (· * 1000)
  else none

/-- Date part parsing of `fromisoformat`: `year-month-day`. -/
def parseDateChars (cs : List Char) : Option (Nat × Nat × Nat) :=
  match splitOnChar '-' cs with
  | [y, m, d] => do
      let yv ← parseDigits y
      let mv ← parseDigits m
      let dv ← parseDigits d
      pure (yv, mv, dv)
  | _ => none

/-- Time part parsing of `fromisoformat`: `hour:minute:second` with an
optional fractional part. -/
def parseTimeChars (cs : List Char) : Option (Nat × Nat × Nat × Nat) :=
  match splitOnChar ':' cs with
  | [h, m, rest] =>
    match splitOnChar '.' rest with
    | [sec] => do
        let hv ← parseDigits h
        let mv ← parseDigits m
        let sv ← parseDigits sec
        pure (hv, mv, sv, 0)
    | [sec, frac] => do
        let hv ← parseDigits h
        let mv ← parseDigits m
        let sv ← parseDigits sec
        let us ← parseMicro frac
        pure (hv, mv, sv, us)
    | _ => none
  | _ => none

/-- Models `datetime.fromisoformat` on the subset of shapes this program
writes: a date, optionally followed by `T` and a time. The model accepts
some strings CPython rejects (unpadded fields, day `31` in short months);
no theorem depends on those. Anything else, including every non-string
argument, yields `none`, the image of the `TypeError` or `ValueError` the
library raises. -/
def fromIsoChars (cs : List Char) : Option DateTime :=
  match splitOnChar 'T' cs with
  | [d] => do
      let (y, mo, dy) ← parseDateChars d
      mkDateTime y mo dy 0 0 0 0
  | [d, tm] => do
      let (y, mo, dy) ← parseDateChars d
      let (h, mi, s, us) ← parseTimeChars tm
      mkDateTime y mo dy h mi s us
  | _ => none

/-- Models `datetime.fromisoformat` on strings. -/
def fromisoformat (s : String) : Option DateTime := fromIsoChars s.data

/-- Day number of a civil date counted from 1970-01-01, by the standard
era decomposition (floor divisions throughout). -/
def daysFromCivil (y m d : Int) : Int :=
  let yy := if m ≤ 2 then y - 1 else y
  let era := Int.fdiv yy 400
  let yoe := yy - era * 400
  let mp := if 2 < m then m - 3 else m + 9
  let doy := Int.fdiv (153 * mp + 2) 5 + d - 1
  let doe := yoe * 365 + Int.fdiv yoe 4 - Int.fdiv yoe 100 + doy
  era * 146097 + doe - 719468

/-- Microseconds from the Unix epoch; `(a - b).total_seconds()` of the
source compares through differences of this quantity. -/
def DateTime.epochMicro (t : DateTime) : Int :=
  ((daysFromCivil t.year t.month t.day) * 86400
    + t.hour * 3600 + t.minute * 60 + t.second) * 1000000 + t.micro

theorem natToChars_length_le {n k : Nat} (hk : 1 ≤ k) (h : n < 10 ^ k) :
    (natToChars n).length ≤ k := by
  rw [natToChars_eq]
  split
  · simpa
  · rw [List.length_reverse, List.length_map]
    rw [Nat.digits_len 10 n (by norm_num) (by assumption)]
    have := Nat.log_lt_of_lt_pow (by assumption) h
    omega

theorem padChars_length {w n : Nat} (h : (natToChars n).length ≤ w) :
    (padChars w n).length = w := by
  unfold padChars
  rw [List.length_append, List.length_replicate]
  omega

theorem not_T_mem_dateChars (t : DateTime) : 'T' ∉ dateChars t := by
  intro hmem
  unfold dateChars at hmem
  simp only [List.mem_append, List.mem_cons, List.not_mem_nil] at hmem
  rcases hmem with (h | h | h) | h | h
  · exact not_mem_pad (by decide) 4 t.year h
  · exact absurd h (by decide)
  · exact not_mem_pad (by decide) 2 t.month h
  · exact absurd h (by decide)
  · exact not_mem_pad (by decide) 2 t.day h

theorem not_colon_mem_secTail (t : DateTime) :
    ':' ∉ padChars 2 t.second ++ (if t.micro = 0 then [] else '.' :: padChars 6 t.micro) := by
  intro hmem
  rw [List.mem_append] at hmem
  rcases hmem with h | h
  · exact not_mem_pad (by decide) 2 t.second h
  · split at h
    · simp at h
    · rw [List.mem_cons] at h
      rcases h with h | h
      · exact absurd h (by decide)
      · exact not_mem_pad (by decide) 6 t.micro h

theorem not_T_mem_timeChars (t : DateTime) : 'T' ∉ timeChars t := by
  intro hmem
  unfold timeChars at hmem
  simp only [List.mem_append, List.mem_cons, List.not_mem_nil] at hmem
  rcases hmem with (h | h | h) | h | h | h
  · exact not_mem_pad (by decide) 2 t.hour h
  · exact absurd h (by decide)
  · exact not_mem_pad (by decide) 2 t.minute h
  · exact absurd h (by decide)
  · exact not_mem_pad (by decide) 2 t.second h
  · split at h
    · simp at h
    · rw [List.mem_cons] at h
      rcases h with h | h
      · exact absurd h (by decide)
      · exact not_mem_pad (by decide) 6 t.micro h

/-- Key inverse property: on any valid `DateTime` (in particular on every
timestamp the program itself writes), parsing the ISO string reproduces
the value. -/
theorem fromisoformat_isoformat {t : DateTime} (h : t.valid = true) :
    fromisoformat (isoformat t) = some t := by
  have hT : splitOnChar 'T' (isoChars t) = [dateChars t, timeChars t] := by
    unfold isoChars
    rw [splitOnChar_append (timeChars t) (not_T_mem_dateChars t),
      splitOnChar_not_mem (not_T_mem_timeChars t)]
  have hdate : parseDateChars (dateChars t) = some (t.year, t.month, t.day) := by
    unfold parseDateChars dateChars
    rw [List.append_assoc, List.cons_append]
    rw [splitOnChar_append _ (not_mem_pad (by decide) 4 t.year),
      splitOnChar_append _ (not_mem_pad (by decide) 2 t.month),
      splitOnChar_not_mem (not_mem_pad (by decide) 2 t.day)]
    simp [parseDigits_padChars]
  have hus : t.micro ≤ 999999 := by
    unfold DateTime.valid at h
    simp only [Bool.and_eq_true, decide_eq_true_eq] at h
    exact h.2
  have htime : parseTimeChars (timeChars t) =
      some (t.hour, t.minute, t.second, t.micro) := by
    unfold parseTimeChars timeChars
    rw [List.append_assoc, List.cons_append]
    rw [splitOnChar_append _ (not_mem_pad (by decide) 2 t.hour),
      splitOnChar_append _ (not_mem_pad (by decide) 2 t.minute),
      splitOnChar_not_mem (not_colon_mem_secTail t)]
    by_cases h0 : t.micro = 0
    · rw [if_pos h0, List.append_nil]
      have hs : splitOnChar '.' (padChars 2 t.second) = [padChars 2 t.second] :=
        splitOnChar_not_mem (not_mem_pad (by decide) 2 t.second)
      simp [hs, parseDigits_padChars, h0]
    · rw [if_neg h0]
      have hs : splitOnChar '.' (padChars 2 t.second ++ '.' :: padChars 6 t.micro)
          = [padChars 2 t.second, padChars 6 t.micro] := by
        rw [splitOnChar_append _ (not_mem_pad (by decide) 2 t.second),
          splitOnChar_not_mem (not_mem_pad (by decide) 6 t.micro)]
      have hlen : (padChars 6 t.micro).length = 6 :=
        padChars_length (natToChars_length_le (by norm_num) (by omega))
      simp [hs, parseDigits_padChars, parseMicro, hlen]
  show fromIsoChars (isoChars t) = some t
  unfold fromIsoChars
  rw [hT]
  simp only [hdate, htime, Option.bind_eq_bind, Option.some_bind]
  unfold mkDateTime
  simp only [h, if_pos]

/-- Sanity anchor for the calendar model: the Unix epoch is day zero. -/
theorem daysFromCivil_epoch : daysFromCivil 1970 1 1 = 0 := by decide

/-! ## JSON values and Python dicts

Python dicts preserve insertion order; they are modelled as association
lists without duplicate keys, with assignment updating in place. Floats
are modelled as rationals and `NaN` as `null`. -/

/-- A JSON value as held by the Python code and the cache file. -/
inductive JValue where
  | null
  | num (q : Rat)
  | str (s : String)
  | arr (xs : List JValue)
  | obj (kvs : List (String × JValue))

/-- Python dict lookup, as in `data.get(k)` and `k in data`. -/
def lookupJ (k : String) : List (String × JValue) → Option JValue
  | [] => none
  | kv :: rest => if kv.1 = k then some kv.2 else lookupJ k rest

/-- Python dict assignment `d[k] = v`: updates in place when the key is
present, otherwise appends, preserving insertion order. -/
def dictInsert (kvs : List (String × JValue)) (k : String) (v : JValue) :
    List (String × JValue) :=
  if kvs.any (fun kv => kv.1 = k) then
    kvs.map (fun kv => if kv.1 = k then (k, v) else kv)
  else kvs ++ [(k, v)]

/-- Keys of a snapshot object other than the reserved timestamp key. -/
def sectionKeys (kvs : List (String × JValue)) : List String :=
  (kvs.map Prod.fst).filter (fun k => k != "last_updated")

/-! ## Cell text conversion

Models the text-to-value conversion `pandas.read_html` applies with its
defaults: cells in the default missing-value list become `NaN` (modelled
`null`), a column in which every cell is missing or numeric after
removing the default thousands separator becomes numeric, and every other
column keeps its strings. -/

/-- Whitespace characters removed by Python `str.strip()` (the common
ones; the page never carries the exotic ones). -/
def isSpaceChar (c : Char) : Bool :=
  c = ' ' || c = '\t' || c = '\n' || c = '\r'

/-- Models Python `str.strip()`. -/
def pyStrip (s : String) : String :=
  String.mk (((s.data.dropWhile isSpaceChar).reverse.dropWhile isSpaceChar).reverse)

/-- Default missing-value strings of the pandas text parser. -/
def naStrings : List String :=
  ["", "#N/A", "#N/A N/A", "#NA", "-1.#IND", "-1.#QNAN", "-NaN", "-nan",
   "1.#IND", "1.#QNAN", "<NA>", "N/A", "NA", "NULL", "NaN", "None", "n/a", "nan", "null"]

/-- Whether a cleaned cell text is a missing value. -/
def isNA (s : String) : Bool := naStrings.contains s

/-- Unsigned decimal literal with optional fractional part. -/
def floatCore (cs : List Char) : Option Rat :=
  match splitOnChar '.' cs with
  | [ip] =>
    if !ip.isEmpty && ip.all Char.isDigit then some ((digitsVal ip : Nat) : Rat) else none
  | [ip, fp] =>
    if (!ip.isEmpty || !fp.isEmpty) && ip.all Char.isDigit && fp.all Char.isDigit then
      some (((digitsVal ip : Nat) : Rat) + ((digitsVal fp : Nat) : Rat) / (10 : Rat) ^ fp.length)
    else none
  | _ => none

/-- Optionally signed decimal literal: the shape `float()` accepts among
the values this page carries (exponents, `inf`, `nan` and underscores are
outside the model). -/
def signedFloat (cs : List Char) : Option Rat :=
  match cs with
  | '+' :: rest => floatCore rest
  | '-' :: rest => (floatCore rest).map (fun q => -q)
  | _ => floatCore cs

/-- Models `float(s)` on a cleaned string. -/
def pyFloat (s : String) : Option Rat := signedFloat s.data

/-- Numeric reading of one table cell after removing the default
thousands separator `,`. -/
def cellNumber (s : String) : Option Rat :=
  signedFloat (s.data.filter (fun c => c != ','))

/-- Text of column `j` of a row, whitespace-stripped; a missing cell of a
short row reads as the empty string, a missing value. -/
def cellAt (row : List String) (j : Nat) : String := pyStrip (row.getD j "")

/-- Whether the parser converts column `j` to a numeric column: every
cell is a missing value or reads as a number. -/
def colNumeric (rows : List (List String)) (j : Nat) : Bool :=
  rows.all (fun row => isNA (cellAt row j) || (cellNumber (cellAt row j)).isSome)

/-- The value stored for one cell: missing values become `null` (NaN),
cells of a numeric column become numbers, anything else stays a string. -/
def convertCell (numericCol : Bool) (s : String) : JValue :=
  if isNA s then JValue.null
  else if numericCol then
    match cellNumber s with
    | some q => JValue.num q
    | none => JValue.str s
  else JValue.str s

/-! ## The document and the extraction loop -/

/-- One HTML table as the extractor sees it: its class tokens, the header
row `pandas.read_html` takes as column names, and the data rows as cell
text. The model covers tables with a header row, the shape of the scraped
page. -/
structure Table where
  classes : List String
  header : List String
  rows : List (List String)
deriving DecidableEq, Repr

/-- One node of the parsed document, in document order: a level-2 heading
with its text, a table, or anything else. -/
inductive Node where
  | h2 (text : String)
  | table (t : Table)
  | other
deriving DecidableEq, Repr

/-- The class token `find_all("table", ...)` selects on. -/
def markerToken : String := "mctable1"

/-- The selection test of `find_all("table", ...)` on one node: a table
carrying the marker token among its class tokens matches. -/
def matchedHere (prev : List Node) : Node → List (List Node × Table)
  | Node.table t => if markerToken ∈ t.classes then [(prev, t)] else []
  | _ => []

/-- Tables whose class attribute carries the marker token, in document
order, each paired with the list of nodes strictly before it. -/
def scanTables : List Node → List Node → List (List Node × Table)
  | [], _ => []
  | n :: rest, prev => matchedHere prev n ++ scanTables rest (prev ++ [n])

/-- Models `soup.find_all("table", ...)` with the preceding context of
each match. -/
def tablesWithCtx (doc : List Node) : List (List Node × Table) := scanTables doc []

/-- Models `table.find_previous("h2")`: the nearest heading before the
table in document order, with its text. -/
def lastH2 : List Node → Option String
  | [] => none
  | n :: rest =>
    match lastH2 rest with
    | some s => some s
    | none => match n with | Node.h2 s => some s | _ => none

/-- Models `pd.read_html(str(table))[0].to_dict("records")` for one row:
keys are the header names, values the converted cells. -/
def rowRecord (t : Table) (row : List String) : List (String × JValue) :=
  t.header.enum.map (fun p => (p.2, convertCell (colNumeric t.rows p.1) (cellAt row p.1)))

/-- The record sequence of one table. -/
def tableToRecords (t : Table) : JValue :=
  JValue.arr (t.rows.map (fun row => JValue.obj (rowRecord t row)))

/-- The synthesized section name `Market_Table_<n>`. -/
def marketTableName (n : Nat) : String := "Market_Table_" ++ natToString n

/-- Section name for one table given the mapping built so far: stripped
text of the nearest preceding h2, else a name synthesized from the
current size of the mapping (`len(market_data) + 1`). -/
def sectionTitle (prev : List Node) (md : List (String × JValue)) : String :=
  match lastH2 prev with
  | some s => pyStrip s
  | none => marketTableName (md.length + 1)

/-- The extraction loop shared by `fetch_market_data` and
`fetch_global_indices`: one dict assignment per matched table. -/
def buildLoop : List (List Node × Table) → List (String × JValue) → List (String × JValue)
  | [], md => md
  | p :: rest, md =>
    buildLoop rest (dictInsert md (sectionTitle p.1 md) (tableToRecords p.2))

/-- The mapping built from the matched tables. -/
def buildMarketData (tbls : List (List Node × Table)) : List (String × JValue) :=
  buildLoop tbls []

/-- The section names assigned by the extraction loop, in table order. -/
def titlesLoop : List (List Node × Table) → List (String × JValue) → List String
  | [], _ => []
  | p :: rest, md =>
    sectionTitle p.1 md ::
      titlesLoop rest (dictInsert md (sectionTitle p.1 md) (tableToRecords p.2))

/-- The section names assigned to the matched tables of a document, in
document order of the tables. -/
def assignedTitles (tbls : List (List Node × Table)) : List String := titlesLoop tbls []

/-! ## The two fetch cycles and the cache store -/

/-- Content written by one `json.dump` call: the value and the indent
argument it was given. -/
structure JFile where
  value : JValue
  indent : Option Nat

/-- State of the cache file on disk: missing, bytes that do not parse as
JSON, or a stored JSON document. -/
inductive FileState where
  | absent
  | invalid
  | stored (f : JFile)

/-- Outcome of `requests.get` plus `raise_for_status` plus the soup
parse: an exception with its message, or the parsed document. -/
inductive FetchOutcome where
  | failure (msg : String)
  | success (doc : List Node)

/-- The error snapshot literal built at both failure points of
`fetch_market_data`. -/
def errorSnapshot (msg : String) (now : DateTime) : JValue :=
  JValue.obj [("error", JValue.str msg), ("timestamp", JValue.str (isoformat now))]

/-- Models `fetch_market_data` (src/app.py, lines 37-80): `now` is the
clock, `outcome` the network and parse result, `saveErr` the exception
message of a failing cache write if any, `prev` the cache file before the
call. Returns the value handed to the caller and the cache file after the
call; every `except` path of the source is one of the inputs, so the
model is a total function and the caller always receives a value. -/
def fetch_market_data (now : DateTime) (outcome : FetchOutcome)
    (saveErr : Option String) (prev : FileState) : JValue × FileState :=
  match outcome with
  | FetchOutcome.failure msg =>
    (errorSnapshot ("An error occurred: " ++ msg) now, prev)
  | FetchOutcome.success doc =>
    let tables := tablesWithCtx doc
    if tables.isEmpty then
      (errorSnapshot "No market data tables found on the page." now, prev)
    else
      let md := dictInsert (buildMarketData tables) "last_updated"
        (JValue.str (isoformat now))
      match saveErr with
      | none => (JValue.obj md, FileState.stored ⟨JValue.obj md, none⟩)
      | some e => (errorSnapshot ("An error occurred: " ++ e) now, FileState.invalid)

/-- CACHE_DURATION of src/app.py, in seconds. -/
def CACHE_DURATION : Nat := 3600

/-- The timestamp extraction of `load_cached_data`:
`datetime.fromisoformat(data.get("last_updated", "1970-01-01"))`, with
`none` standing for the exceptions the line can raise (non-dict data,
non-string entry, unparseable string). -/
def getLastUpdated (data : JValue) : Option DateTime :=
  match data with
  | JValue.obj kvs =>
    match lookupJ "last_updated" kvs with
    | some (JValue.str s) => fromisoformat s
    | some _ => none
    | none => fromisoformat "1970-01-01"
  | _ => none

/-- Models `load_cached_data` (src/app.py, lines 82-97) at clock `now`;
the `except` clause makes every failure `none`. -/
def load_cached_data (file : FileState) (now : DateTime) : Option JValue :=
  match file with
  | FileState.absent => none
  | FileState.invalid => none
  | FileState.stored f =>
    match getLastUpdated f.value with
    | none => none
    | some lu =>
      if now.epochMicro - lu.epochMicro < (CACHE_DURATION : Int) * 1000000 then
        some f.value
      else none

/-- Two-decimal fixed-point rendering of a rational: the model of the
Python `:.2f` format on the exactly representable values this code
formats. -/
def fmt2 (q : Rat) : String :=
  let c : Nat := (round (|q| * 100)).toNat
  (if q < 0 then "-" else "") ++ natToString (c / 100) ++ "." ++ String.mk (padChars 2 (c % 100))

/-- Models `format_change` (src/app.py, lines 99-112): only strings are
reworked; the text is stripped of `%` and `,` and trimmed, and on any
`float` failure the original string is returned unchanged. -/
def format_change (v : JValue) : JValue :=
  match v with
  | JValue.str s =>
    let cleaned := pyStrip (String.mk ((s.data.filter (fun c => c != '%')).filter (fun c => c != ',')))
    match pyFloat cleaned with
    | some c =>
      if 0 < c then JValue.str ("<span class=\"positive-change\">+" ++ fmt2 c ++ "%</span>")
      else if c < 0 then JValue.str ("<span class=\"negative-change\">" ++ fmt2 c ++ "%</span>")
      else JValue.str (fmt2 c ++ "%")
    | none => JValue.str s
  | v => v

/-- Models `now.strftime("%Y%m%d_%H%M%S")`. -/
def strftimeCompact (t : DateTime) : String :=
  String.mk (padChars 4 t.year ++ padChars 2 t.month ++ padChars 2 t.day ++
    '_' :: (padChars 2 t.hour ++ padChars 2 t.minute ++ padChars 2 t.second))

/-- Models `fetch_global_indices` (src/scrape_markets.py): returns the
message the function returns and the file it writes, if any. -/
def fetch_global_indices (now : DateTime) (outcome : FetchOutcome)
    (saveErr : Option String) : String × Option (String × JFile) :=
  match outcome with
  | FetchOutcome.failure msg => ("An error occurred: " ++ msg, none)
  | FetchOutcome.success doc =>
    let tables := tablesWithCtx doc
    if tables.isEmpty then
      ("No market data tables found on the page.", none)
    else
      let md := buildMarketData tables
      let filename := "market_data_" ++ strftimeCompact now ++ ".json"
      match saveErr with
      | none => ("Data successfully saved to " ++ filename,
                 some (filename, ⟨JValue.obj md, some 4⟩))
      | some e => ("An error occurred: " ++ e, none)

/-! ## Association list lemmas for the Python dict model -/

theorem dictInsert_of_not_mem {kvs : List (String × JValue)} {k : String} (v : JValue)
    (h : k ∉ kvs.map Prod.fst) : dictInsert kvs k v = kvs ++ [(k, v)] := by
  unfold dictInsert
  rw [if_neg]
  intro hany
  rw [List.any_eq_true] at hany
  obtain ⟨kv, hkv, he⟩ := hany
  rw [decide_eq_true_eq] at he
  exact h (he ▸ List.mem_map_of_mem Prod.fst hkv)

theorem map_fst_dictInsert_mem {kvs : List (String × JValue)} {k : String} (v : JValue)
    (h : k ∈ kvs.map Prod.fst) : (dictInsert kvs k v).map Prod.fst = kvs.map Prod.fst := by
  unfold dictInsert
  rw [if_pos]
  · rw [List.map_map]
    refine List.map_congr_left ?_
    intro kv _
    by_cases he : kv.1 = k
    · simp [Function.comp, he]
    · simp [Function.comp, he]
  · rw [List.any_eq_true]
    rw [List.mem_map] at h
    obtain ⟨kv, hkv, he⟩ := h
    exact ⟨kv, hkv, by rw [decide_eq_true_eq]; exact he⟩

theorem lookupJ_append_left {k : String} : ∀ {l₁ : List (String × JValue)}
    (l₂ : List (String × JValue)), k ∈ l₁.map Prod.fst →
    lookupJ k (l₁ ++ l₂) = lookupJ k l₁ := by
  intro l₁
  induction l₁ with
  | nil => intro l₂ h; simp at h
  | cons kv rest ih =>
    intro l₂ h
    show lookupJ k (kv :: (rest ++ l₂)) = _
    unfold lookupJ
    by_cases he : kv.1 = k
    · rw [if_pos he, if_pos he]
    · rw [if_neg he, if_neg he]
      refine ih l₂ ?_
      rw [List.map_cons, List.mem_cons] at h
      rcases h with h | h
      · exact absurd h.symm he
      · exact h

theorem lookupJ_append_right {k : String} : ∀ {l₁ : List (String × JValue)}
    (l₂ : List (String × JValue)), k ∉ l₁.map Prod.fst →
    lookupJ k (l₁ ++ l₂) = lookupJ k l₂ := by
  intro l₁
  induction l₁ with
  | nil => intro l₂ _; rfl
  | cons kv rest ih =>
    intro l₂ h
    rw [List.map_cons, List.mem_cons] at h
    push_neg at h
    rw [List.cons_append, lookupJ]
    rw [if_neg (fun he => h.1 he.symm)]
    exact ih l₂ h.2

theorem lookupJ_eq_none_of_not_mem {k : String} : ∀ {kvs : List (String × JValue)},
    k ∉ kvs.map Prod.fst → lookupJ k kvs = none := by
  intro kvs
  induction kvs with
  | nil => intro _; rfl
  | cons kv rest ih =>
    intro h
    rw [List.map_cons, List.mem_cons] at h
    push_neg at h
    rw [lookupJ, if_neg (fun he => h.1 he.symm)]
    exact ih h.2

theorem lookupJ_dictInsert_self (kvs : List (String × JValue)) (k : String) (v : JValue) :
    lookupJ k (dictInsert kvs k v) = some v := by
  by_cases h : k ∈ kvs.map Prod.fst
  · unfold dictInsert
    rw [if_pos]
    · induction kvs with
      | nil => simp at h
      | cons kv rest ih =>
        rw [List.map_cons, List.mem_cons] at h
        by_cases he : kv.1 = k
        · show lookupJ k ((if kv.1 = k then (k, v) else kv) :: _) = some v
          rw [if_pos he]
          unfold lookupJ
          rw [if_pos rfl]
        · show lookupJ k ((if kv.1 = k then (k, v) else kv) :: _) = some v
          rw [if_neg he]
          unfold lookupJ
          rw [if_neg he]
          refine ih ?_
          rcases h with h | h
          · exact absurd h.symm he
          · exact h
    · rw [List.any_eq_true]
      rw [List.mem_map] at h
      obtain ⟨kv, hkv, he⟩ := h
      exact ⟨kv, hkv, by rw [decide_eq_true_eq]; exact he⟩
  · rw [dictInsert_of_not_mem v h, lookupJ_append_right _ h]
    unfold lookupJ
    rw [if_pos rfl]

theorem lookupJ_map_update_ne {k0 k : String} (v : JValue) (h : k0 ≠ k) :
    ∀ (kvs : List (String × JValue)),
    lookupJ k0 (kvs.map (fun kv => if kv.1 = k then (k, v) else kv)) = lookupJ k0 kvs := by
  intro kvs
  induction kvs with
  | nil => rfl
  | cons kv rest ih =>
    rw [List.map_cons]
    by_cases he : kv.1 = k
    · have h1 : ¬(k, v).1 = k0 := fun e => h e.symm
      have h2 : ¬kv.1 = k0 := fun e => h (by rw [← e, he])
      rw [if_pos he, lookupJ, lookupJ, if_neg h1, if_neg h2]
      exact ih
    · rw [if_neg he, lookupJ, lookupJ]
      by_cases he0 : kv.1 = k0
      · rw [if_pos he0, if_pos he0]
      · rw [if_neg he0, if_neg he0]
        exact ih

theorem lookupJ_dictInsert_ne {k0 k : String} (kvs : List (String × JValue)) (v : JValue)
    (h : k0 ≠ k) : lookupJ k0 (dictInsert kvs k v) = lookupJ k0 kvs := by
  unfold dictInsert
  split
  · exact lookupJ_map_update_ne v h kvs
  · by_cases hm : k0 ∈ kvs.map Prod.fst
    · exact lookupJ_append_left _ hm
    · rw [lookupJ_append_right _ hm, lookupJ_eq_none_of_not_mem hm]
      rw [lookupJ, if_neg (fun e => h e.symm)]
      rfl

theorem marketTableName_injective : Function.Injective marketTableName := by
  intro a b h
  unfold marketTableName at h
  have hd := congrArg String.data h
  simp only [String.data_append] at hd
  have := List.append_cancel_left hd
  exact natToString_injective (congrArg String.mk this)

/-! ## Extraction loop lemmas -/

theorem lastH2_none_of_no_h2 : ∀ {l : List Node}, (∀ s, Node.h2 s ∉ l) → lastH2 l = none := by
  intro l
  induction l with
  | nil => intro _; rfl
  | cons n rest ih =>
    intro h
    have hr : lastH2 rest = none := ih (fun s hs => h s (List.mem_cons_of_mem n hs))
    cases n with
    | h2 s => exact absurd (List.mem_cons_self _ _) (h s)
    | table t =>
      show (match lastH2 rest with
        | some s => some s
        | none => none) = none
      rw [hr]
    | other =>
      show (match lastH2 rest with
        | some s => some s
        | none => none) = none
      rw [hr]

theorem lastH2_cons (n : Node) (rest : List Node) :
    lastH2 (n :: rest) = match lastH2 rest with
      | some x => some x
      | none => (match n with | Node.h2 u => some u | _ => none) := rfl

theorem no_h2_of_lastH2_none : ∀ {l : List Node}, lastH2 l = none → ∀ s, Node.h2 s ∉ l := by
  intro l
  induction l with
  | nil => intro _ s h; simp at h
  | cons n rest ih =>
    intro h s hmem
    have h2 := (lastH2_cons n rest) ▸ h
    cases hr : lastH2 rest with
    | some x => rw [hr] at h2; exact Option.noConfusion h2
    | none =>
      rw [hr] at h2
      rw [List.mem_cons] at hmem
      rcases hmem with he | hm
      · cases n with
        | h2 u => exact Option.noConfusion h2
        | table t => exact Node.noConfusion he
        | other => exact Node.noConfusion he
      · exact ih hr s hm

theorem lastH2_none_mono {l₁ l₂ : List Node} (hp : l₁ <+: l₂)
    (h : lastH2 l₂ = none) : lastH2 l₁ = none :=
  lastH2_none_of_no_h2 (fun s hs => no_h2_of_lastH2_none h s (hp.subset hs))

theorem scanTables_ctx_extends : ∀ (doc prev : List Node) (p : List Node × Table),
    p ∈ scanTables doc prev → prev <+: p.1 := by
  intro doc
  induction doc with
  | nil => intro prev p h; simp [scanTables] at h
  | cons n rest ih =>
    intro prev p h
    unfold scanTables at h
    rw [List.mem_append] at h
    rcases h with h | h
    · cases n with
      | table t =>
        simp only [matchedHere] at h
        split at h
        · rw [List.mem_singleton] at h
          subst h
          exact List.prefix_rfl
        · simp at h
      | h2 s => simp [matchedHere] at h
      | other => simp [matchedHere] at h
    · exact List.IsPrefix.trans (List.prefix_append prev [n]) (ih (prev ++ [n]) p h)

theorem scanTables_ctx_mono : ∀ (doc prev : List Node) (i j : Nat)
    (p q : List Node × Table), i ≤ j →
    (scanTables doc prev)[i]? = some p → (scanTables doc prev)[j]? = some q →
    p.1 <+: q.1 := by
  intro doc
  induction doc with
  | nil => intro prev i j p q hij hp hq; simp [scanTables] at hp
  | cons n rest ih =>
    intro prev i j p q hij hp hq
    cases n with
    | h2 s =>
      rw [show scanTables (Node.h2 s :: rest) prev
          = scanTables rest (prev ++ [Node.h2 s]) from rfl] at hp hq
      exact ih _ i j p q hij hp hq
    | other =>
      rw [show scanTables (Node.other :: rest) prev
          = scanTables rest (prev ++ [Node.other]) from rfl] at hp hq
      exact ih _ i j p q hij hp hq
    | table t =>
      by_cases hc : markerToken ∈ t.classes
      · rw [show scanTables (Node.table t :: rest) prev
            = (if markerToken ∈ t.classes then [(prev, t)] else [])
              ++ scanTables rest (prev ++ [Node.table t]) from rfl,
          if_pos hc, List.singleton_append] at hp hq
        match i, j with
        | 0, 0 =>
          rw [List.getElem?_cons_zero] at hp hq
          have hpq : p = q := by
            have h1 := Option.some.inj hp
            have h2 := Option.some.inj hq
            rw [← h1, ← h2]
          rw [hpq]
        | 0, j + 1 =>
          rw [List.getElem?_cons_zero] at hp
          rw [List.getElem?_cons_succ] at hq
          have hp1 : p = (prev, t) := (Option.some.inj hp).symm
          have hq1 := scanTables_ctx_extends rest (prev ++ [Node.table t]) q
            (List.getElem?_mem hq)
          rw [hp1]
          exact List.IsPrefix.trans (List.prefix_append prev [Node.table t]) hq1
        | i + 1, j + 1 =>
          rw [List.getElem?_cons_succ] at hp hq
          exact ih _ i j p q (Nat.le_of_succ_le_succ hij) hp hq
      · rw [show scanTables (Node.table t :: rest) prev
            = (if markerToken ∈ t.classes then [(prev, t)] else [])
              ++ scanTables rest (prev ++ [Node.table t]) from rfl,
          if_neg hc, List.nil_append] at hp hq
        exact ih _ i j p q hij hp hq

theorem tablesWithCtx_ctx_mono {doc : List Node} {i j : Nat}
    {p q : List Node × Table} (hij : i ≤ j)
    (hp : (tablesWithCtx doc)[i]? = some p) (hq : (tablesWithCtx doc)[j]? = some q) :
    p.1 <+: q.1 :=
  scanTables_ctx_mono doc [] i j p q hij hp hq

theorem titlesLoop_no_h2 : ∀ (tbls : List (List Node × Table)) (md : List (String × JValue))
    (k j : Nat), md.map Prod.fst = (List.range' 1 j).map marketTableName →
    (∀ i p, i ≤ k → tbls[i]? = some p → lastH2 p.1 = none) →
    k < tbls.length →
    (titlesLoop tbls md)[k]? = some (marketTableName (j + k + 1)) := by
  intro tbls
  induction tbls with
  | nil => intro md k j _ _ hk; simp at hk
  | cons p rest ih =>
    intro md k j hmd hno hk
    have hp0 : lastH2 p.1 = none :=
      hno 0 p (Nat.zero_le k) (by rw [List.getElem?_cons_zero])
    have hlen : md.length = j := by
      have := congrArg List.length hmd
      simpa using this
    have htitle : sectionTitle p.1 md = marketTableName (j + 1) := by
      unfold sectionTitle
      rw [hp0, hlen]
    have hfresh : marketTableName (j + 1) ∉ md.map Prod.fst := by
      rw [hmd]
      intro hmem
      rw [List.mem_map] at hmem
      obtain ⟨i, hi, he⟩ := hmem
      have hinj := marketTableName_injective he
      rw [List.mem_range'] at hi
      omega
    cases k with
    | zero =>
      rw [titlesLoop, List.getElem?_cons_zero, htitle]
    | succ k =>
      rw [titlesLoop, List.getElem?_cons_succ, htitle]
      have hres := ih (dictInsert md (marketTableName (j + 1)) (tableToRecords p.2)) k (j + 1)
        ?_ ?_ ?_
      · rw [hres]
        congr 2
        omega
      · rw [dictInsert_of_not_mem _ hfresh, List.map_append, hmd, List.range'_concat,
          List.map_append]
        have he : 1 + 1 * j = j + 1 := by omega
        rw [he]
        simp
      · intro i q hi hq
        exact hno (i + 1) q (Nat.succ_le_succ hi)
          (by rw [List.getElem?_cons_succ]; exact hq)
      · have := hk
        simp only [List.length_cons] at this
        omega

theorem titlesLoop_with_h2 : ∀ (tbls : List (List Node × Table)) (hs : List String)
    (md : List (String × JValue)),
    tbls.map (fun p => lastH2 p.1) = hs.map some →
    titlesLoop tbls md = hs.map pyStrip := by
  intro tbls
  induction tbls with
  | nil =>
    intro hs md h
    cases hs with
    | nil => rfl
    | cons a b => simp at h
  | cons p rest ih =>
    intro hs md h
    cases hs with
    | nil => simp at h
    | cons s hs =>
      simp only [List.map_cons, List.cons.injEq] at h
      rw [titlesLoop]
      have ht : sectionTitle p.1 md = pyStrip s := by
        unfold sectionTitle
        rw [h.1]
      rw [ht, ih hs _ h.2, List.map_cons]

theorem buildLoop_keys : ∀ (tbls : List (List Node × Table)) (hs : List String)
    (md : List (String × JValue)),
    tbls.map (fun p => lastH2 p.1) = hs.map some →
    (hs.map pyStrip).Nodup →
    (∀ s ∈ hs.map pyStrip, s ∉ md.map Prod.fst) →
    (buildLoop tbls md).map Prod.fst = md.map Prod.fst ++ hs.map pyStrip := by
  intro tbls
  induction tbls with
  | nil =>
    intro hs md h _ _
    cases hs with
    | nil => simp [buildLoop]
    | cons a b => simp at h
  | cons p rest ih =>
    intro hs md h hnd hdisj
    cases hs with
    | nil => simp at h
    | cons s hs =>
      simp only [List.map_cons, List.cons.injEq] at h
      rw [buildLoop]
      have ht : sectionTitle p.1 md = pyStrip s := by
        unfold sectionTitle
        rw [h.1]
      have hfresh : pyStrip s ∉ md.map Prod.fst := hdisj (pyStrip s) (by simp)
      rw [List.map_cons, List.nodup_cons] at hnd
      rw [ht, dictInsert_of_not_mem _ hfresh,
        ih hs _ h.2 hnd.2 ?_, List.map_append]
      · simp
      · intro u hu
        rw [List.map_append, List.mem_append]
        push_neg
        refine ⟨hdisj u (by simp [hu]), ?_⟩
        intro hmem
        simp only [List.map_cons, List.map_nil, List.mem_singleton] at hmem
        exact hnd.1 (hmem ▸ hu)

theorem buildLoop_untouched : ∀ (tbls : List (List Node × Table))
    (md : List (String × JValue)) (t : String),
    t ∉ titlesLoop tbls md → lookupJ t (buildLoop tbls md) = lookupJ t md := by
  intro tbls
  induction tbls with
  | nil => intro md t _; rfl
  | cons p rest ih =>
    intro md t h
    rw [titlesLoop, List.mem_cons] at h
    push_neg at h
    rw [buildLoop, ih _ t h.2, lookupJ_dictInsert_ne _ _ h.1]

theorem buildLoop_lookup : ∀ (tbls : List (List Node × Table)) (md : List (String × JValue))
    (k : Nat) (p : List Node × Table) (ttl : String),
    tbls[k]? = some p → (titlesLoop tbls md)[k]? = some ttl →
    (∀ j, k < j → (titlesLoop tbls md)[j]? ≠ some ttl) →
    lookupJ ttl (buildLoop tbls md) = some (tableToRecords p.2) := by
  intro tbls
  induction tbls with
  | nil => intro md k p ttl hp _ _; simp at hp
  | cons q rest ih =>
    intro md k p ttl hp ht hlater
    cases k with
    | zero =>
      rw [List.getElem?_cons_zero] at hp
      rw [titlesLoop, List.getElem?_cons_zero] at ht
      have hpq : q = p := Option.some.inj hp
      have httl : sectionTitle q.1 md = ttl := Option.some.inj ht
      have hnot : ttl ∉ titlesLoop rest
          (dictInsert md (sectionTitle q.1 md) (tableToRecords q.2)) := by
        intro hmem
        obtain ⟨j, hj⟩ := List.getElem?_of_mem hmem
        exact hlater (j + 1) (Nat.succ_pos j)
          (by rw [titlesLoop, List.getElem?_cons_succ]; exact hj)
      rw [buildLoop, buildLoop_untouched rest _ ttl hnot, ← httl,
        lookupJ_dictInsert_self, hpq]
    | succ k =>
      rw [List.getElem?_cons_succ] at hp
      rw [titlesLoop, List.getElem?_cons_succ] at ht
      have hlater2 : ∀ j, k < j →
          (titlesLoop rest (dictInsert md (sectionTitle q.1 md) (tableToRecords q.2)))[j]?
            ≠ some ttl := by
        intro j hj
        exact fun he => hlater (j + 1) (Nat.succ_lt_succ hj)
          (by rw [titlesLoop, List.getElem?_cons_succ]; exact he)
      rw [buildLoop]
      exact ih _ k p ttl hp ht hlater2

theorem rowRecord_keys (t : Table) (row : List String) :
    (rowRecord t row).map Prod.fst = t.header := by
  unfold rowRecord
  rw [List.map_map]
  rw [show (Prod.fst ∘ fun p : Nat × String =>
      (p.2, convertCell (colNumeric t.rows p.1) (cellAt row p.1))) = Prod.snd from rfl]
  exact List.enum_map_snd t.header

theorem map_fst_dictInsert_cases {kvs : List (String × JValue)} {k key : String}
    {v : JValue} (h : key ∈ (dictInsert kvs k v).map Prod.fst) :
    key ∈ kvs.map Prod.fst ∨ key = k := by
  unfold dictInsert at h
  split at h
  · rw [List.map_map, List.mem_map] at h
    obtain ⟨kv, hkv, he⟩ := h
    by_cases hc : kv.1 = k
    · right
      rw [← he]
      simp [Function.comp, hc]
    · left
      rw [← he]
      have h2 : (Prod.fst ∘ fun kv : String × JValue => if kv.1 = k then (k, v) else kv) kv
          = kv.1 := by simp [Function.comp, hc]
      rw [h2]
      exact List.mem_map_of_mem Prod.fst hkv
  · rw [List.map_append, List.mem_append] at h
    rcases h with h | h
    · exact Or.inl h
    · simp only [List.map_cons, List.map_nil, List.mem_singleton] at h
      exact Or.inr h

theorem buildLoop_keys_cases : ∀ (tbls : List (List Node × Table))
    (md : List (String × JValue)) (key : String),
    key ∈ (buildLoop tbls md).map Prod.fst →
    key ∈ md.map Prod.fst ∨ key ∈ titlesLoop tbls md := by
  intro tbls
  induction tbls with
  | nil => intro md key h; exact Or.inl h
  | cons p rest ih =>
    intro md key h
    rw [buildLoop] at h
    rcases ih _ key h with h | h
    · rcases map_fst_dictInsert_cases h with h | h
      · exact Or.inl h
      · right
        rw [titlesLoop, h]
        exact List.mem_cons_self _ _
    · right
      rw [titlesLoop]
      exact List.mem_cons_of_mem _ h

/-! ## Claim C1 -/

/-- C1: the combined fetch cycle is a total function of its inputs (every
exception path of the source is one of the modelled outcomes), so the
caller always receives a value; on every failure path the value is an
error snapshot, an object with exactly the two keys error and timestamp
and no section keys, the timestamp being the ISO rendering of the clock;
otherwise it is the section mapping carrying the last_updated stamp. -/
theorem C1_fetch_always_value (now : DateTime) (outcome : FetchOutcome)
    (saveErr : Option String) (prev : FileState) :
    (∃ msg, (fetch_market_data now outcome saveErr prev).1
        = JValue.obj [("error", JValue.str msg),
            ("timestamp", JValue.str (isoformat now))])
    ∨ (∃ md, (fetch_market_data now outcome saveErr prev).1 = JValue.obj md
        ∧ lookupJ "last_updated" md = some (JValue.str (isoformat now))) := by
  cases outcome with
  | failure msg => exact Or.inl ⟨"An error occurred: " ++ msg, rfl⟩
  | success doc =>
    by_cases he : (tablesWithCtx doc).isEmpty
    · refine Or.inl ⟨"No market data tables found on the page.", ?_⟩
      simp only [fetch_market_data]
      rw [if_pos he]
      rfl
    · cases saveErr with
      | none =>
        refine Or.inr ⟨dictInsert (buildMarketData (tablesWithCtx doc)) "last_updated"
          (JValue.str (isoformat now)), ?_, lookupJ_dictInsert_self _ _ _⟩
        simp only [fetch_market_data]
        rw [if_neg he]
      | some e =>
        refine Or.inl ⟨"An error occurred: " ++ e, ?_⟩
        simp only [fetch_market_data]
        rw [if_neg he]
        rfl

/-! ## Claim C7 -/

/-- C7: with zero matching tables, extraction yields exactly the
no-tables error snapshot (keys error and timestamp only), never a partial
snapshot, and the cache file is left as it was. -/
theorem C7_no_tables_error (now : DateTime) (doc : List Node)
    (saveErr : Option String) (prev : FileState)
    (h : tablesWithCtx doc = []) :
    fetch_market_data now (FetchOutcome.success doc) saveErr prev
      = (JValue.obj [("error", JValue.str "No market data tables found on the page."),
          ("timestamp", JValue.str (isoformat now))], prev) := by
  simp only [fetch_market_data]
  rw [h]
  rfl

/-- Witness for C7 on a page whose only table lacks the marker class. -/
theorem C7_witness :
    tablesWithCtx [Node.h2 "X", Node.table ⟨["plain"], ["H"], []⟩] = []
    ∧ fetch_market_data ⟨2026, 1, 2, 3, 4, 5, 6⟩
        (FetchOutcome.success [Node.h2 "X", Node.table ⟨["plain"], ["H"], []⟩])
        none FileState.absent
      = (JValue.obj [("error", JValue.str "No market data tables found on the page."),
          ("timestamp", JValue.str "2026-01-02T03:04:05.000006")], FileState.absent) :=
  ⟨rfl, C7_no_tables_error ⟨2026, 1, 2, 3, 4, 5, 6⟩ _ none FileState.absent rfl⟩

/-! ## Claim C8 -/

/-- C8: a matched table with no preceding level-2 heading is assigned the
section name Market_Table_n, where n is its 1-based position among the
matched tables: such tables precede every heading, so all earlier matched
tables are also heading-less and the mapping has grown by exactly one
distinct synthesized name per table. -/
theorem C8_synthesized_names (doc : List Node) (k : Nat) (p : List Node × Table)
    (hp : (tablesWithCtx doc)[k]? = some p)
    (hno : lastH2 p.1 = none) :
    (assignedTitles (tablesWithCtx doc))[k]? = some (marketTableName (k + 1)) := by
  have hall : ∀ i q, i ≤ k → (tablesWithCtx doc)[i]? = some q → lastH2 q.1 = none := by
    intro i q hi hq
    exact lastH2_none_mono (tablesWithCtx_ctx_mono hi hq hp) hno
  have hk : k < (tablesWithCtx doc).length := by
    rcases List.getElem?_eq_some_iff.mp hp with ⟨h, _⟩
    exact h
  have hres := titlesLoop_no_h2 (tablesWithCtx doc) [] k 0 (by simp) hall hk
  unfold assignedTitles
  rw [hres]
  congr 2
  omega

/-- Witness for C8: two heading-less matched tables receive the names
Market_Table_1 and Market_Table_2; the theorem is applied at the second
one. -/
theorem C8_witness :
    (assignedTitles (tablesWithCtx
        [Node.table ⟨["mctable1"], ["A"], []⟩, Node.other,
         Node.table ⟨["mctable1"], ["B"], []⟩]))[1]?
      = some "Market_Table_2" :=
  C8_synthesized_names
    [Node.table ⟨["mctable1"], ["A"], []⟩, Node.other,
     Node.table ⟨["mctable1"], ["B"], []⟩] 1
    ([Node.table ⟨["mctable1"], ["A"], []⟩, Node.other], ⟨["mctable1"], ["B"], []⟩)
    rfl rfl

/-! ## Claim C10 -/

/-- C10: a cache file that parses as a JSON object without a last_updated
key is dated by the default string 1970-01-01, the Unix epoch, and so is
stale for any clock at least one TTL past the epoch: the load returns
nothing rather than the data or an exception. -/
theorem C10_missing_key_epoch (kvs : List (String × JValue)) (now : DateTime)
    (indent : Option Nat)
    (hmiss : lookupJ "last_updated" kvs = none)
    (hage : (CACHE_DURATION : Int) * 1000000 ≤ now.epochMicro) :
    getLastUpdated (JValue.obj kvs) = some ⟨1970, 1, 1, 0, 0, 0, 0⟩
    ∧ load_cached_data (FileState.stored ⟨JValue.obj kvs, indent⟩) now = none := by
  have hlu : getLastUpdated (JValue.obj kvs) = some ⟨1970, 1, 1, 0, 0, 0, 0⟩ := by
    simp only [getLastUpdated]
    rw [hmiss]
    rfl
  refine ⟨hlu, ?_⟩
  simp only [load_cached_data]
  rw [hlu]
  show (if now.epochMicro - DateTime.epochMicro ⟨1970, 1, 1, 0, 0, 0, 0⟩
      < (CACHE_DURATION : Int) * 1000000 then some (JValue.obj kvs) else none) = none
  rw [if_neg]
  rw [show DateTime.epochMicro ⟨1970, 1, 1, 0, 0, 0, 0⟩ = 0 from by decide]
  omega

/-- Witness for C10: an object with only an unrelated key, loaded in
2026, is reported absent. -/
theorem C10_witness :
    getLastUpdated (JValue.obj [("x", JValue.null)]) = some ⟨1970, 1, 1, 0, 0, 0, 0⟩
    ∧ load_cached_data (FileState.stored ⟨JValue.obj [("x", JValue.null)], none⟩)
        ⟨2026, 1, 1, 0, 0, 0, 0⟩ = none :=
  C10_missing_key_epoch [("x", JValue.null)] ⟨2026, 1, 1, 0, 0, 0, 0⟩ none rfl (by decide)

/-! ## Claim C2 -/

/-- C2 counterexample: a cache file that exists and parses as JSON, whose
last_updated entry is the string garbage. The stated trichotomy (missing,
JSON parse failure, age at least the TTL) is not met: the timestamp does
not parse at all, so no age can be at least the TTL; yet the load returns
nothing instead of the parsed snapshot. -/
theorem C2_counterexample :
    load_cached_data
        (FileState.stored ⟨JValue.obj [("last_updated", JValue.str "garbage")], none⟩)
        ⟨2026, 1, 1, 0, 0, 0, 0⟩ = none
    ∧ FileState.stored (⟨JValue.obj [("last_updated", JValue.str "garbage")], none⟩ : JFile)
        ≠ FileState.absent
    ∧ FileState.stored (⟨JValue.obj [("last_updated", JValue.str "garbage")], none⟩ : JFile)
        ≠ FileState.invalid
    ∧ ∀ t : DateTime,
        getLastUpdated (JValue.obj [("last_updated", JValue.str "garbage")]) ≠ some t := by
  refine ⟨rfl, by simp, by simp, ?_⟩
  intro t h
  rw [show getLastUpdated (JValue.obj [("last_updated", JValue.str "garbage")])
      = none from rfl] at h
  exact Option.noConfusion h

/-- C2 amended: the load returns nothing exactly when the file is
missing, is not JSON, or the stored value fails to produce an in-TTL
timestamp, which bundles four code paths modelled by getLastUpdated: the
parsed value is not an object, the last_updated entry is not a string,
the string (defaulted to 1970-01-01 when the key is absent) does not
parse as a timestamp, or the parsed timestamp is at least one TTL old.
Otherwise it returns the parsed snapshot unchanged, and it never
raises. -/
theorem C2_amended (file : FileState) (now : DateTime) :
    (load_cached_data file now = none ↔
      ¬∃ f t, file = FileState.stored f ∧ getLastUpdated f.value = some t
        ∧ now.epochMicro - t.epochMicro < (CACHE_DURATION : Int) * 1000000)
    ∧ (∀ f t, file = FileState.stored f → getLastUpdated f.value = some t →
        now.epochMicro - t.epochMicro < (CACHE_DURATION : Int) * 1000000 →
        load_cached_data file now = some f.value) := by
  cases file with
  | absent =>
    refine ⟨⟨fun _ h => ?_, fun _ => rfl⟩, fun f t h => FileState.noConfusion h⟩
    obtain ⟨f, t, hf, _⟩ := h
    exact FileState.noConfusion hf
  | invalid =>
    refine ⟨⟨fun _ h => ?_, fun _ => rfl⟩, fun f t h => FileState.noConfusion h⟩
    obtain ⟨f, t, hf, _⟩ := h
    exact FileState.noConfusion hf
  | stored f =>
    cases hlu : getLastUpdated f.value with
    | none =>
      constructor
      · constructor
        · intro _ h
          obtain ⟨f2, t, hf, hl, _⟩ := h
          have hf2 : f2 = f := by
            cases hf
            rfl
          rw [hf2, hlu] at hl
          exact Option.noConfusion hl
        · intro _
          simp only [load_cached_data]
          rw [hlu]
      · intro f2 t hf hl
        have hf2 : f2 = f := by
          cases hf
          rfl
        rw [hf2, hlu] at hl
        exact absurd hl (by simp)
    | some lu =>
      by_cases hage : now.epochMicro - lu.epochMicro < (CACHE_DURATION : Int) * 1000000
      · have hload : load_cached_data (FileState.stored f) now = some f.value := by
          simp only [load_cached_data]
          rw [hlu]
          show (if now.epochMicro - lu.epochMicro < (CACHE_DURATION : Int) * 1000000
            then some f.value else none) = some f.value
          rw [if_pos hage]
        constructor
        · rw [hload]
          constructor
          · intro h
            exact absurd h (by simp)
          · intro h
            exact absurd ⟨f, lu, rfl, hlu, hage⟩ h
        · intro f2 t hf hl ha
          have hf2 : f2 = f := by
            cases hf
            rfl
          rw [hf2]
          exact hload
      · have hload : load_cached_data (FileState.stored f) now = none := by
          simp only [load_cached_data]
          rw [hlu]
          show (if now.epochMicro - lu.epochMicro < (CACHE_DURATION : Int) * 1000000
            then some f.value else none) = none
          rw [if_neg hage]
        constructor
        · rw [hload]
          constructor
          · intro _ h
            obtain ⟨f2, t, hf, hl, ha⟩ := h
            have hf2 : f2 = f := by
              cases hf
              rfl
            rw [hf2, hlu] at hl
            have ht : t = lu := (Option.some.inj hl).symm
            rw [ht] at ha
            exact hage ha
          · intro _
            rfl
        · intro f2 t hf hl ha
          exfalso
          have hf2 : f2 = f := by
            cases hf
            rfl
          rw [hf2, hlu] at hl
          have ht : t = lu := (Option.some.inj hl).symm
          rw [ht] at ha
          exact hage ha

/-- Witness for C2 amended: a fresh snapshot stored half an hour ago is
returned unchanged. -/
theorem C2_amended_witness :
    load_cached_data
        (FileState.stored ⟨JValue.obj [("last_updated", JValue.str "2026-01-01T00:00:00")],
          none⟩) ⟨2026, 1, 1, 0, 30, 0, 0⟩
      = some (JValue.obj [("last_updated", JValue.str "2026-01-01T00:00:00")]) :=
  (C2_amended (FileState.stored ⟨JValue.obj [("last_updated",
      JValue.str "2026-01-01T00:00:00")], none⟩) ⟨2026, 1, 1, 0, 30, 0, 0⟩).2
    ⟨JValue.obj [("last_updated", JValue.str "2026-01-01T00:00:00")], none⟩
    ⟨2026, 1, 1, 0, 0, 0, 0⟩ rfl rfl (by decide)

/-! ## Claim C3 -/

/-- C3: a successful fetch cycle saves exactly the snapshot it returns;
loading at any clock strictly within one TTL of the fetch clock returns
that snapshot unchanged, loading at any clock at least one TTL later
returns nothing. The stored timestamp round-trips because it is the ISO
rendering of the (valid) fetch clock. -/
theorem C3_cache_roundtrip (t now : DateTime) (doc : List Node) (prev : FileState)
    (hvalid : t.valid = true)
    (hne : tablesWithCtx doc ≠ []) :
    ∃ res st, fetch_market_data t (FetchOutcome.success doc) none prev = (res, st)
      ∧ (now.epochMicro - t.epochMicro < (CACHE_DURATION : Int) * 1000000 →
          load_cached_data st now = some res)
      ∧ ((CACHE_DURATION : Int) * 1000000 ≤ now.epochMicro - t.epochMicro →
          load_cached_data st now = none) := by
  have hemp : ¬(tablesWithCtx doc).isEmpty = true := by
    cases h : tablesWithCtx doc with
    | nil => exact absurd h hne
    | cons a b => simp
  have hfe : fetch_market_data t (FetchOutcome.success doc) none prev
      = (JValue.obj (dictInsert (buildMarketData (tablesWithCtx doc)) "last_updated"
            (JValue.str (isoformat t))),
         FileState.stored ⟨JValue.obj (dictInsert (buildMarketData (tablesWithCtx doc))
            "last_updated" (JValue.str (isoformat t))), none⟩) := by
    simp only [fetch_market_data]
    rw [if_neg hemp]
  have hlu : getLastUpdated (JValue.obj (dictInsert (buildMarketData (tablesWithCtx doc))
      "last_updated" (JValue.str (isoformat t)))) = some t := by
    simp only [getLastUpdated]
    rw [lookupJ_dictInsert_self]
    exact fromisoformat_isoformat hvalid
  refine ⟨_, _, hfe, ?_, ?_⟩
  · intro hage
    simp only [load_cached_data]
    rw [hlu]
    show (if now.epochMicro - t.epochMicro < (CACHE_DURATION : Int) * 1000000
      then some (JValue.obj (dictInsert (buildMarketData (tablesWithCtx doc))
        "last_updated" (JValue.str (isoformat t)))) else none) = _
    rw [if_pos hage]
  · intro hage
    simp only [load_cached_data]
    rw [hlu]
    show (if now.epochMicro - t.epochMicro < (CACHE_DURATION : Int) * 1000000
      then some (JValue.obj (dictInsert (buildMarketData (tablesWithCtx doc))
        "last_updated" (JValue.str (isoformat t)))) else none) = _
    rw [if_neg (not_lt.mpr hage)]

/-- Witness for C3: a page fetched at midnight; the load succeeds with
the identical snapshot half an hour later and is absent two hours
later. -/
theorem C3_witness :
    ∃ res st,
      fetch_market_data ⟨2026, 1, 1, 0, 0, 0, 0⟩
          (FetchOutcome.success [Node.h2 "Asia",
            Node.table ⟨["mctable1"], ["Name"], [["abc"]]⟩]) none FileState.absent
        = (res, st)
      ∧ load_cached_data st ⟨2026, 1, 1, 0, 30, 0, 0⟩ = some res
      ∧ load_cached_data st ⟨2026, 1, 1, 2, 0, 0, 0⟩ = none := by
  obtain ⟨res, st, h1, h2, _⟩ := C3_cache_roundtrip ⟨2026, 1, 1, 0, 0, 0, 0⟩
    ⟨2026, 1, 1, 0, 30, 0, 0⟩
    [Node.h2 "Asia", Node.table ⟨["mctable1"], ["Name"], [["abc"]]⟩]
    FileState.absent (by decide) (by decide)
  obtain ⟨res2, st2, h1b, _, h3b⟩ := C3_cache_roundtrip ⟨2026, 1, 1, 0, 0, 0, 0⟩
    ⟨2026, 1, 1, 2, 0, 0, 0⟩
    [Node.h2 "Asia", Node.table ⟨["mctable1"], ["Name"], [["abc"]]⟩]
    FileState.absent (by decide) (by decide)
  rw [h1] at h1b
  injection h1b with hr hs
  refine ⟨res, st, h1, h2 (by decide), ?_⟩
  rw [hs]
  exact h3b (by decide)

/-! ## Claim C4 -/

/-- C4 counterexample: one matching table preceded by the (single, hence
distinct) heading last_updated. The claim asks for exactly one section
key equal to that heading text; the code instead overwrites the section
with the timestamp stamp, so the successful snapshot has no section key
at all. -/
theorem C4_counterexample :
    (tablesWithCtx [Node.h2 "last_updated", Node.table ⟨["mctable1"], ["A"], []⟩]).length = 1
    ∧ (tablesWithCtx [Node.h2 "last_updated", Node.table ⟨["mctable1"], ["A"], []⟩]).map
        (fun p => lastH2 p.1) = [some "last_updated"]
    ∧ (fetch_market_data ⟨2026, 1, 1, 0, 0, 0, 0⟩
        (FetchOutcome.success [Node.h2 "last_updated",
          Node.table ⟨["mctable1"], ["A"], []⟩]) none FileState.absent).1
      = JValue.obj [("last_updated", JValue.str "2026-01-01T00:00:00")]
    ∧ sectionKeys [("last_updated", JValue.str "2026-01-01T00:00:00")] = [] :=
  ⟨rfl, rfl, rfl, rfl⟩

/-- C4 amended: for a document whose matched tables (at least one) each
have a nearest preceding heading, the stripped heading texts distinct and
none equal to the reserved key last_updated, the successful snapshot has
exactly those stripped texts as its section keys, in document order of
the tables, followed by the reserved last_updated key. -/
theorem C4_amended (now : DateTime) (doc : List Node) (prev : FileState) (hs : List String)
    (hmap : (tablesWithCtx doc).map (fun p => lastH2 p.1) = hs.map some)
    (hne : hs ≠ [])
    (hnd : (hs.map pyStrip).Nodup)
    (hres : "last_updated" ∉ hs.map pyStrip) :
    ∃ md, (fetch_market_data now (FetchOutcome.success doc) none prev).1 = JValue.obj md
      ∧ md.map Prod.fst = hs.map pyStrip ++ ["last_updated"]
      ∧ sectionKeys md = hs.map pyStrip := by
  have hemp : ¬(tablesWithCtx doc).isEmpty = true := by
    cases h : tablesWithCtx doc with
    | nil =>
      rw [h] at hmap
      have : hs = [] := by
        cases hs with
        | nil => rfl
        | cons a b => simp at hmap
      exact absurd this hne
    | cons a b => simp
  have hbkeys : (buildMarketData (tablesWithCtx doc)).map Prod.fst = hs.map pyStrip := by
    unfold buildMarketData
    rw [buildLoop_keys (tablesWithCtx doc) hs [] hmap hnd (by intro s _; simp)]
    rfl
  have hfresh : "last_updated" ∉ (buildMarketData (tablesWithCtx doc)).map Prod.fst := by
    rw [hbkeys]
    exact hres
  have hkeys : (dictInsert (buildMarketData (tablesWithCtx doc)) "last_updated"
      (JValue.str (isoformat now))).map Prod.fst = hs.map pyStrip ++ ["last_updated"] := by
    rw [dictInsert_of_not_mem _ hfresh, List.map_append, hbkeys]
    rfl
  refine ⟨dictInsert (buildMarketData (tablesWithCtx doc)) "last_updated"
    (JValue.str (isoformat now)), ?_, hkeys, ?_⟩
  · simp only [fetch_market_data]
    rw [if_neg hemp]
  · unfold sectionKeys
    rw [hkeys, List.filter_append]
    have h1 : (hs.map pyStrip).filter (fun k => k != "last_updated") = hs.map pyStrip := by
      rw [List.filter_eq_self]
      intro a ha
      rw [bne_iff_ne]
      intro he
      exact hres (he ▸ ha)
    rw [h1]
    simp

/-- Witness for C4 amended: two matched tables with headings, the first
one carrying surrounding whitespace; the section keys are the stripped
texts in order, then the reserved key. -/
theorem C4_amended_witness :
    ∃ md, (fetch_market_data ⟨2026, 1, 1, 0, 0, 0, 0⟩
        (FetchOutcome.success [Node.h2 " Asia ", Node.table ⟨["mctable1"], ["A"], []⟩,
          Node.h2 "Europe", Node.table ⟨["mctable1"], ["B"], [["x"]]⟩])
        none FileState.absent).1 = JValue.obj md
      ∧ md.map Prod.fst = ["Asia", "Europe", "last_updated"]
      ∧ sectionKeys md = ["Asia", "Europe"] :=
  C4_amended ⟨2026, 1, 1, 0, 0, 0, 0⟩
    [Node.h2 " Asia ", Node.table ⟨["mctable1"], ["A"], []⟩,
     Node.h2 "Europe", Node.table ⟨["mctable1"], ["B"], [["x"]]⟩]
    FileState.absent [" Asia ", "Europe"] rfl (by decide) (by decide) (by decide)

/-! ## Claim C5 -/

/-- C5 counterexample: two matched tables share the heading Asia; the
first has one data row and a header row, but the section carrying its
name holds the records of the second table, two records instead of the
one the claim requires for the first table. -/
theorem C5_counterexample :
    (tablesWithCtx [Node.h2 "Asia", Node.table ⟨["mctable1"], ["A"], [["x"]]⟩,
        Node.table ⟨["mctable1"], ["A"], [["y"], ["z"]]⟩]).map
      (fun p => (p.2.rows.length, lastH2 p.1)) = [(1, some "Asia"), (2, some "Asia")]
    ∧ ∃ md, (fetch_market_data ⟨2026, 1, 1, 0, 0, 0, 0⟩
        (FetchOutcome.success [Node.h2 "Asia", Node.table ⟨["mctable1"], ["A"], [["x"]]⟩,
          Node.table ⟨["mctable1"], ["A"], [["y"], ["z"]]⟩]) none FileState.absent).1
        = JValue.obj md
      ∧ lookupJ "Asia" md
        = some (JValue.arr [JValue.obj [("A", JValue.str "y")],
            JValue.obj [("A", JValue.str "z")]])
      ∧ [JValue.obj [("A", JValue.str "y")], JValue.obj [("A", JValue.str "z")]].length
        ≠ 1 :=
  ⟨rfl, _, rfl, rfl, by decide⟩

/-- C5 amended: for every matched table whose assigned section name is
not reassigned to a later matched table (duplicate headings collapse
last-write-wins) and is not the reserved key last_updated, the snapshot
carries under that name a sequence of exactly one record per data row,
each record keyed exactly by the header names; a table with zero data
rows contributes an empty sequence, not an omitted section. -/
theorem C5_amended (now : DateTime) (doc : List Node) (prev : FileState) (k : Nat)
    (p : List Node × Table) (ttl : String)
    (hp : (tablesWithCtx doc)[k]? = some p)
    (ht : (assignedTitles (tablesWithCtx doc))[k]? = some ttl)
    (hlater : ∀ j, k < j → (assignedTitles (tablesWithCtx doc))[j]? ≠ some ttl)
    (hres : ttl ≠ "last_updated") :
    ∃ md recs, (fetch_market_data now (FetchOutcome.success doc) none prev).1
        = JValue.obj md
      ∧ lookupJ ttl md = some (JValue.arr recs)
      ∧ recs.length = p.2.rows.length
      ∧ ∀ r ∈ recs, ∃ kvs, r = JValue.obj kvs ∧ kvs.map Prod.fst = p.2.header := by
  have hemp : ¬(tablesWithCtx doc).isEmpty = true := by
    cases h : tablesWithCtx doc with
    | nil => rw [h] at hp; simp at hp
    | cons a b => simp
  have hlook : lookupJ ttl (buildMarketData (tablesWithCtx doc))
      = some (tableToRecords p.2) :=
    buildLoop_lookup (tablesWithCtx doc) [] k p ttl hp ht hlater
  have hmd : lookupJ ttl (dictInsert (buildMarketData (tablesWithCtx doc)) "last_updated"
      (JValue.str (isoformat now))) = some (tableToRecords p.2) := by
    rw [lookupJ_dictInsert_ne _ _ hres, hlook]
  refine ⟨dictInsert (buildMarketData (tablesWithCtx doc)) "last_updated"
      (JValue.str (isoformat now)),
    p.2.rows.map (fun row => JValue.obj (rowRecord p.2 row)), ?_, ?_, ?_, ?_⟩
  · simp only [fetch_market_data]
    rw [if_neg hemp]
  · rw [hmd]
    rfl
  · rw [List.length_map]
  · intro r hr
    rw [List.mem_map] at hr
    obtain ⟨row, hrow, he⟩ := hr
    exact ⟨rowRecord p.2 row, he.symm, rowRecord_keys p.2 row⟩

/-- Witness document for C5: two matched tables under distinct headings,
the second with a header row and zero data rows. -/
def C5wdoc : List Node :=
  [Node.h2 "Asia", Node.table ⟨["mctable1"], ["Name", "Val"], [["a", "b"]]⟩,
   Node.h2 "Europe", Node.table ⟨["mctable1"], ["H1"], []⟩]

/-- Witness for C5 amended, applied at the zero-row table: its section is
present with the empty record sequence. -/
theorem C5_amended_witness :
    ∃ md recs, (fetch_market_data ⟨2026, 1, 1, 0, 0, 0, 0⟩
        (FetchOutcome.success C5wdoc) none FileState.absent).1 = JValue.obj md
      ∧ lookupJ "Europe" md = some (JValue.arr recs)
      ∧ recs.length = 0
      ∧ ∀ r ∈ recs, ∃ kvs, r = JValue.obj kvs ∧ kvs.map Prod.fst = ["H1"] := by
  have hlater : ∀ j, 1 < j →
      (assignedTitles (tablesWithCtx C5wdoc))[j]? ≠ some "Europe" := by
    intro j hj
    have hlen : (assignedTitles (tablesWithCtx C5wdoc)).length = 2 := rfl
    rw [List.getElem?_eq_none (by rw [hlen]; omega)]
    simp
  exact C5_amended ⟨2026, 1, 1, 0, 0, 0, 0⟩ C5wdoc FileState.absent 1
    ([Node.h2 "Asia", Node.table ⟨["mctable1"], ["Name", "Val"], [["a", "b"]]⟩,
      Node.h2 "Europe"], ⟨["mctable1"], ["H1"], []⟩) "Europe" rfl rfl hlater (by decide)

/-! ## Claim C6 -/

/-- The three-cell table exercising the numeric coercion paths. -/
def C6table : Table := ⟨["mctable1"], ["A", "B", "C"], [["+1.23%", "1,234.50", "N/A"]]⟩

theorem tableToRecords_C6_eval :
    tableToRecords C6table = JValue.arr [JValue.obj
      [("A", JValue.str "+1.23%"), ("B", JValue.num 1234.5), ("C", JValue.null)]] := by
  rw [show tableToRecords C6table = JValue.arr [JValue.obj
      [("A", JValue.str "+1.23%"),
       ("B", JValue.num (((1234 : Nat) : Rat) + ((50 : Nat) : Rat) / (10 : Rat) ^ (2 : Nat))),
       ("C", JValue.null)]] from rfl]
  have he : (((1234 : Nat) : Rat) + ((50 : Nat) : Rat) / (10 : Rat) ^ (2 : Nat))
      = (1234.5 : Rat) := by norm_num
  rw [he]

/-- C6 counterexample: during extraction the percent cell is not stripped
of the percent sign and stays a string, and the N/A cell becomes a
missing value (NaN, modelled null), not the string N/A; only the
comma-formatted cell coerces to a number. -/
theorem C6_counterexample :
    tableToRecords C6table = JValue.arr [JValue.obj
        [("A", JValue.str "+1.23%"), ("B", JValue.num 1234.5), ("C", JValue.null)]]
    ∧ JValue.str "+1.23%" ≠ JValue.num 1.23
    ∧ JValue.null ≠ JValue.str "N/A" :=
  ⟨tableToRecords_C6_eval, by simp, by simp⟩

theorem round_toNat_eval {q : Rat} {m : Nat} (hq : 0 ≤ q) (h : q * 100 = (m : Rat)) :
    (round (|q| * 100)).toNat = m := by
  rw [abs_of_nonneg hq, h, round_natCast]
  exact Int.toNat_natCast m

theorem fmt2_eval_pos {q : Rat} {m : Nat} (hq : 0 < q) (h : q * 100 = (m : Rat)) :
    fmt2 q = natToString (m / 100) ++ "." ++ String.mk (padChars 2 (m % 100)) := by
  simp only [fmt2]
  rw [round_toNat_eval (le_of_lt hq) h, if_neg (not_lt.mpr (le_of_lt hq))]
  rfl

theorem format_change_pct_eval :
    format_change (JValue.str "+1.23%")
      = JValue.str "<span class=\"positive-change\">+1.23%</span>" := by
  have h0 : format_change (JValue.str "+1.23%")
      = (if 0 < (((1 : Nat) : Rat) + ((23 : Nat) : Rat) / (10 : Rat) ^ (2 : Nat))
         then JValue.str ("<span class=\"positive-change\">+"
            ++ fmt2 (((1 : Nat) : Rat) + ((23 : Nat) : Rat) / (10 : Rat) ^ (2 : Nat))
            ++ "%</span>")
         else if (((1 : Nat) : Rat) + ((23 : Nat) : Rat) / (10 : Rat) ^ (2 : Nat)) < 0
         then JValue.str ("<span class=\"negative-change\">"
            ++ fmt2 (((1 : Nat) : Rat) + ((23 : Nat) : Rat) / (10 : Rat) ^ (2 : Nat))
            ++ "%</span>")
         else JValue.str (fmt2 (((1 : Nat) : Rat) + ((23 : Nat) : Rat) / (10 : Rat) ^ (2 : Nat))
            ++ "%")) := rfl
  have hpos : (0 : Rat) < ((1 : Nat) : Rat) + ((23 : Nat) : Rat) / (10 : Rat) ^ (2 : Nat) := by
    norm_num
  have h123 : (((1 : Nat) : Rat) + ((23 : Nat) : Rat) / (10 : Rat) ^ (2 : Nat)) * 100
      = ((123 : Nat) : Rat) := by
    norm_num
  rw [h0, if_pos hpos, fmt2_eval_pos hpos h123]
  rfl

/-- C6 amended: during extraction the parser strips the default thousands
comma, so 1,234.50 coerces to the number 1234.5; the percent sign is not
stripped there, so +1.23% stays the string +1.23%; N/A becomes a missing
value, not a string. The percent-and-comma stripping with
raw-string-on-failure described by the claim lives in the display helper
format_change: there +1.23% reads as the number 1.23 and is rendered as a
two-decimal HTML span, an unparseable string such as N/A comes back
unchanged, and a non-string value comes back unchanged. -/
theorem C6_amended :
    tableToRecords C6table = JValue.arr [JValue.obj
        [("A", JValue.str "+1.23%"), ("B", JValue.num 1234.5), ("C", JValue.null)]]
    ∧ format_change (JValue.str "+1.23%")
        = JValue.str "<span class=\"positive-change\">+1.23%</span>"
    ∧ format_change (JValue.str "N/A") = JValue.str "N/A"
    ∧ format_change (JValue.num 1234.5) = JValue.num 1234.5 :=
  ⟨tableToRecords_C6_eval, format_change_pct_eval, rfl, rfl⟩

/-! ## Claim C9 -/

/-- C9 counterexample: a successful run whose only section heading is
literally last_updated; the written export file then does carry a
last_updated key (holding that section), contrary to the claim that the
file contains the mapping without any last_updated key. -/
theorem C9_counterexample :
    fetch_global_indices ⟨2026, 1, 2, 3, 4, 5, 0⟩
        (FetchOutcome.success [Node.h2 "last_updated",
          Node.table ⟨["mctable1"], ["A"], []⟩]) none
      = ("Data successfully saved to market_data_20260102_030405.json",
         some ("market_data_20260102_030405.json",
           ⟨JValue.obj [("last_updated", JValue.arr [])], some 4⟩))
    ∧ lookupJ "last_updated" [("last_updated", JValue.arr [])] ≠ none := by
  refine ⟨rfl, ?_⟩
  intro h
  rw [show lookupJ "last_updated" [("last_updated", JValue.arr [])]
      = some (JValue.arr []) from rfl] at h
  exact Option.noConfusion h

/-- C9 amended: every successful run writes a file named
market_data_YYYYMMDD_HHMMSS.json with 4-space indentation whose content
is exactly the section mapping, to which no last_updated key is added (a
last_updated key can appear only as a section whose heading is literally
so named), and returns the string Data successfully saved to that
filename; with no matching tables it writes nothing and returns the
string No market data tables found on the page. -/
theorem C9_amended (now : DateTime) (doc : List Node) :
    (tablesWithCtx doc ≠ [] →
      fetch_global_indices now (FetchOutcome.success doc) none
        = ("Data successfully saved to "
            ++ ("market_data_" ++ strftimeCompact now ++ ".json"),
           some ("market_data_" ++ strftimeCompact now ++ ".json",
             ⟨JValue.obj (buildMarketData (tablesWithCtx doc)), some 4⟩))
      ∧ ((∀ s ∈ assignedTitles (tablesWithCtx doc), s ≠ "last_updated") →
          lookupJ "last_updated" (buildMarketData (tablesWithCtx doc)) = none))
    ∧ (tablesWithCtx doc = [] →
      fetch_global_indices now (FetchOutcome.success doc) none
        = ("No market data tables found on the page.", none)) := by
  constructor
  · intro hne
    have hemp : ¬(tablesWithCtx doc).isEmpty = true := by
      cases h : tablesWithCtx doc with
      | nil => exact absurd h hne
      | cons a b => simp
    constructor
    · simp only [fetch_global_indices]
      rw [if_neg hemp]
    · intro hall
      apply lookupJ_eq_none_of_not_mem
      intro hmem
      rcases buildLoop_keys_cases (tablesWithCtx doc) [] "last_updated" hmem with h | h
      · simp at h
      · exact hall _ h rfl
  · intro hnil
    simp only [fetch_global_indices]
    rw [hnil]
    rfl

/-- Witness for C9 amended: a one-table page exported at the clock
2026-01-02 03:04:05. -/
theorem C9_amended_witness :
    fetch_global_indices ⟨2026, 1, 2, 3, 4, 5, 0⟩
        (FetchOutcome.success [Node.h2 "Asia",
          Node.table ⟨["mctable1"], ["A"], [["x"]]⟩]) none
      = ("Data successfully saved to market_data_20260102_030405.json",
         some ("market_data_20260102_030405.json",
           ⟨JValue.obj [("Asia", JValue.arr [JValue.obj [("A", JValue.str "x")]])], some 4⟩))
    ∧ lookupJ "last_updated"
        (buildMarketData (tablesWithCtx [Node.h2 "Asia",
          Node.table ⟨["mctable1"], ["A"], [["x"]]⟩])) = none := by
  have h := (C9_amended ⟨2026, 1, 2, 3, 4, 5, 0⟩ [Node.h2 "Asia",
    Node.table ⟨["mctable1"], ["A"], [["x"]]⟩]).1 (by decide)
  exact ⟨h.1, h.2 (by decide)⟩

end Market
